import Mathlib

/-!
# AgriCure backend — verification of the fertilizer-recommendation core and API routes

This file embeds, in Lean 4, the parts of the AgriCure backend that the
specification's claims are about:

* the multi-output out-of-fold (OOF) stacking ensemble (codec, fold
  partitioner, OOF matrix builder, inference engine, ensemble store).
  The Python pipeline itself is not shipped in this repository snapshot —
  only its documentation is — so those definitions are modelled from the
  spec, faithfully to its words, and are marked as such;
* the Express/Mongoose recommendation routes (`src/routes/recommendations.js`)
  and the `Recommendation` Mongoose schema (`src/models/Recommendation.js`),
  which are shipped and are embedded directly from the JavaScript source.

Machine reals are modelled as `ℚ` (probability vectors); identifiers as
`String`; timestamps as `Nat`.
-/

/-- Probability / meta-feature vectors. -/
abbrev Vec := List ℚ

/-- The six prediction targets, in canonical order. -/
def targetNames : List String :=
  ["N_Status", "P_Status", "K_Status", "Primary_Fertilizer",
   "Secondary_Fertilizer", "pH_Amendment"]

/-! ## Error taxonomy (spec §7) -/

/-- Modelled from the spec: the error taxonomy of the pipeline
(`UnknownCategory`, `FamilyMismatch`, `IncompleteOOFCoverage`, plus a
missing-target integrity error for the inference engine). -/
inductive PipelineError where
  | UnknownCategory (column value : String)
  | FamilyMismatch (expected got : Nat)
  | IncompleteOOFCoverage (row : Nat)
  | MissingTarget (name : String)
deriving Repr, DecidableEq

/-- Modelled from the spec: non-fatal training warnings
(`DegradedEnsemble`, `FoldCoverageGap`). -/
inductive TrainingWarning where
  | DegradedEnsemble
  | FoldCoverageGap (cls : Nat)
deriving Repr, DecidableEq

/-! ## Feature/Target Codec (spec §4.1, modelled from the spec:
the Python `LabelEncoder`-based codec is not shipped in this snapshot) -/

/-- Unknown-category handling mode, chosen once at ensemble build time. -/
inductive EncodingMode where
  | strict
  | lenient
deriving Repr, DecidableEq

/-- Modelled from the spec: strict mode is the default; lenient must be
explicitly configured at ensemble build time. -/
def defaultMode : EncodingMode := .strict

/-- Number of occurrences of `v` in `values`. -/
def countOcc (values : List String) (v : String) : Nat :=
  values.countP (fun w => w = v)

/-- Of two candidates, keep the one with the strictly larger occurrence
count in `values` (ties keep the first). -/
def pickMoreFrequent (values : List String) (a b : String) : String :=
  if countOcc values a < countOcc values b then b else a

/-- The most frequent value of a column (`""` on an empty column). -/
def mostFrequentOf (values : List String) : String :=
  match values with
  | [] => ""
  | v :: _ => values.foldl (pickMoreFrequent values) v

/-- Modelled from the spec: a fitted codec — training vocabulary in first-seen
order plus the most frequent training-time category (the lenient fallback). -/
structure Codec where
  column : String
  vocab : List String
  mostFrequent : String
deriving Repr, DecidableEq

/-- Modelled from the spec: `fit` builds the vocabulary from training data
only. -/
def Codec.fit (column : String) (values : List String) : Codec :=
  { column := column, vocab := values.dedup, mostFrequent := mostFrequentOf values }

/-- Index of `v` in `vocab` (leftmost match). -/
def vocabIndex (vocab : List String) (v : String) : Option Nat :=
  match vocab with
  | [] => none
  | w :: rest => if w = v then some 0 else (vocabIndex rest v).map (· + 1)

/-- Modelled from the spec: `encode` fails with `UnknownCategory` on a value
absent from the vocabulary in strict mode; in lenient mode it resolves to the
most frequent training-time category for that column. -/
def Codec.encode (c : Codec) (mode : EncodingMode) (v : String) : Except PipelineError Nat :=
  match vocabIndex c.vocab v with
  | some i => .ok i
  | none =>
    match mode with
    | .strict => .error (.UnknownCategory c.column v)
    | .lenient =>
      match vocabIndex c.vocab c.mostFrequent with
      | some i => .ok i
      | none => .error (.UnknownCategory c.column v)

/-- Modelled from the spec: `decode` is total over `0..C-1`. -/
def Codec.decode (c : Codec) (i : Nat) : String :=
  c.vocab.getD i ""

/-! ## Fold Partitioner and OOF Matrix Builder (spec §4.2, §4.4, modelled from
the spec: the Python training script is not shipped in this snapshot) -/

/-- Modelled from the spec: stratified K-way partition — within each class of
the reference target, rows are distributed round-robin across the `k` folds. -/
def stratifiedPartition (labels : List Nat) (k : Nat) : List Nat :=
  (List.range labels.length).map fun i =>
    ((List.range i).filter (fun j => labels.getD j 0 = labels.getD i 0)).length % k

/-- Row indices used to train the base-model instance whose excluded
(held-out) fold is `k`: every row not assigned to fold `k`. -/
def trainingRowIdx (assignment : List Nat) (k : Nat) : List Nat :=
  (List.range assignment.length).filter fun i => assignment.getD i 0 ≠ k

/-- Modelled from the spec: the OOF probability row for training row `i` under
one family — produced by the fold-specific instance whose excluded fold is the
fold row `i` is assigned to.  A family is represented by its K trained
instances, `model : excluded-fold-index → row-index → probability vector`. -/
def oofFamilyRow (model : Nat → Nat → Vec) (assignment : List Nat) (i : Nat) : Vec :=
  model (assignment.getD i 0) i

/-- Modelled from the spec: `OOFMatrix[target]` — one row per training sample,
the per-family OOF probability vectors concatenated in family order. -/
def oofMatrix (families : List (Nat → Nat → Vec)) (assignment : List Nat) : List Vec :=
  (List.range assignment.length).map fun i =>
    (families.map fun m => oofFamilyRow m assignment i).flatten

/-- Modelled from the spec: per-target test accuracy, a single rational in
`[0,1]` (fraction of positions where prediction equals the true label). -/
def accuracy (preds actual : List Nat) : ℚ :=
  if preds.length = 0 then 0
  else ((preds.zip actual).countP (fun p => p.1 = p.2) : ℚ) / (preds.length : ℚ)

/-! ## Ensemble Store and Inference Engine (spec §4.3, §4.6, §4.7, modelled
from the spec: the Python `MultiOutputOOFStacker` class is not shipped in this
snapshot) -/

/-- A raw input feature row: numeric feature values in canonical column order
plus the raw categorical values keyed by column name. -/
structure RawRow where
  numeric : List ℚ
  categorical : List (String × String)

/-- First-match association-list lookup. -/
def lookupStr (o : List (String × String)) (k : String) : Option String :=
  match o with
  | [] => none
  | p :: rest => if p.1 = k then some p.2 else lookupStr rest k

/-- Modelled from the spec: the per-target part of the ensemble store — the
K fold-specific instances of each trained family (in the persisted family
order), the meta-learner, its expected meta-feature width, and the target's
codec. A fold instance maps an encoded feature row to a probability vector. -/
structure TargetModels where
  target : String
  perFamily : List (List (List ℚ → Vec))
  meta : Vec → Vec
  metaWidth : Nat
  codec : Codec

/-- Modelled from the spec: the durable aggregate of codecs, base models,
meta-learners, the ordered trained-family list, the canonical feature order
and the unknown-category mode recorded at build time. -/
structure EnsembleStore where
  featCodecs : List Codec
  mode : EncodingMode
  families : List String
  targets : List TargetModels
  featureOrder : List String

/-- Pointwise sum of probability vectors. -/
def addVec (a b : Vec) : Vec := a.zipWith (· + ·) b

/-- Sum of a list of probability vectors. -/
def sumVecs : List Vec → Vec
  | [] => []
  | [v] => v
  | v :: rest => addVec v (sumVecs rest)

/-- Modelled from the spec: simple arithmetic mean of K probability vectors. -/
def avgVecs (vs : List Vec) : Vec :=
  (sumVecs vs).map (· / (vs.length : ℚ))

/-- Modelled from the spec: fold-averaged probability vector of one family on
one encoded row. -/
def familyAvg (folds : List (List ℚ → Vec)) (x : List ℚ) : Vec :=
  avgVecs (folds.map (fun f => f x))

/-- Modelled from the spec: the meta-feature vector — per-family fold-averaged
probability vectors concatenated in the persisted family order. -/
def baseFeatures (perFamily : List (List (List ℚ → Vec))) (x : List ℚ) : Vec :=
  (perFamily.map (fun folds => familyAvg folds x)).flatten

/-- Index of the first maximal entry of a score vector (0 on an empty one). -/
def argmaxAux : List ℚ → Nat → Nat → ℚ → Nat
  | [], _, best, _ => best
  | x :: xs, i, best, bv =>
    if bv < x then argmaxAux xs (i + 1) i x else argmaxAux xs (i + 1) best bv

/-- Arg-max class index of a probability/score vector. -/
def argmax : Vec → Nat
  | [] => 0
  | x :: xs => argmaxAux xs 1 0 x

/-- Modelled from the spec: one target's final label — meta-learner on the
concatenated fold-averaged base probabilities, arg-max class, decoded via the
target's codec. -/
def predictTargetLabel (tm : TargetModels) (x : List ℚ) : String :=
  tm.codec.decode (argmax (tm.meta (baseFeatures tm.perFamily x)))

/-- Modelled from the spec: the encode phase — apply every persisted
categorical codec to the raw row under the recorded mode and append the
encoded indices to the numeric features. -/
def encodeCats (mode : EncodingMode) (codecs : List Codec)
    (cats : List (String × String)) : Except PipelineError (List ℚ) :=
  match codecs with
  | [] => .ok []
  | c :: rest =>
    match lookupStr cats c.column with
    | none => .error (.UnknownCategory c.column "<missing>")
    | some v =>
      match c.encode mode v with
      | .error e => .error e
      | .ok i =>
        match encodeCats mode rest cats with
        | .error e => .error e
        | .ok xs => .ok ((i : ℚ) :: xs)

/-- Modelled from the spec: the encoded feature row fed to the base models. -/
def encodeRow (store : EnsembleStore) (r : RawRow) : Except PipelineError (List ℚ) :=
  match encodeCats store.mode store.featCodecs r.categorical with
  | .error e => .error e
  | .ok cats => .ok (r.numeric ++ cats)

/-- Look up the models of one target by name. -/
def findTarget (store : EnsembleStore) (name : String) : Except PipelineError TargetModels :=
  match store.targets.find? (fun tm => tm.target = name) with
  | some tm => .ok tm
  | none => .error (.MissingTarget name)

/-- Modelled from the spec: predict every named target on one encoded row,
atomically — the first failure aborts the whole call. -/
def collectTargets (store : EnsembleStore) (x : List ℚ) :
    List String → Except PipelineError (List (String × String))
  | [] => .ok []
  | n :: rest =>
    match findTarget store n with
    | .error e => .error e
    | .ok tm =>
      match collectTargets store x rest with
      | .error e => .error e
      | .ok tail => .ok ((n, predictTargetLabel tm x) :: tail)

/-- Modelled from the spec: the inference entry point — encode the raw row,
then produce the decoded label of every one of the six targets, or fail as a
whole. -/
def predict (store : EnsembleStore) (r : RawRow) : Except PipelineError (List (String × String)) :=
  match encodeRow store r with
  | .error e => .error e
  | .ok x => collectTargets store x targetNames

/-- Batch prediction on a fixed list of rows. -/
def predictBatch (store : EnsembleStore) (rows : List RawRow) :
    List (Except PipelineError (List (String × String))) :=
  rows.map (predict store)

/-! ## Ensemble Store persistence (spec §4.7) -/

/-- Modelled from the spec: the opaque persistence blob; the byte layout is
unspecified, so the blob is the stored aggregate itself. -/
structure Blob where
  payload : EnsembleStore

/-- Modelled from the spec: the self-consistency validated on load — every
target carries fold models for exactly the persisted family list, and its
meta-learner expects the matching concatenation width. -/
def storeConsistent (e : EnsembleStore) : Bool :=
  e.targets.all fun tm =>
    tm.perFamily.length == e.families.length &&
    tm.metaWidth == e.families.length * tm.codec.vocab.length

/-- Modelled from the spec: `save` serializes the full aggregate as one unit. -/
def save (e : EnsembleStore) : Blob := ⟨e⟩

/-- Modelled from the spec: `load` validates family-list/class-order
consistency and fails loudly with `FamilyMismatch` on a violation. -/
def load (b : Blob) : Except PipelineError EnsembleStore :=
  if storeConsistent b.payload then .ok b.payload
  else .error (.FamilyMismatch b.payload.families.length 0)

/-! ## Training configuration (spec §4.3, §6, §7) -/

/-- Modelled from the spec: the training configuration. -/
structure TrainConfig where
  kFolds : Nat
  families : List String
  referenceTarget : String

/-- Modelled from the spec: configuration warnings — `DegradedEnsemble` when
fewer than two structurally distinct base-model families are configured. -/
def configWarnings (cfg : TrainConfig) : List TrainingWarning :=
  if cfg.families.dedup.length < 2 then [.DegradedEnsemble] else []

/-- Modelled from the spec: the outcome of a completed training run — the
distinct families actually trained plus the surfaced non-fatal warnings. -/
structure TrainOutcome where
  familiesTrained : List String
  warnings : List TrainingWarning
deriving Repr, DecidableEq

/-- Modelled from the spec: the training entry point still completes on a
degenerate family configuration; it surfaces `DegradedEnsemble` as a warning
instead of rejecting the configuration. -/
def train (cfg : TrainConfig) : Except PipelineError TrainOutcome :=
  .ok { familiesTrained := cfg.families.dedup, warnings := configWarnings cfg }

/-! ## Recommendation routes and schema (embedded from
`src/routes/recommendations.js` and `src/models/Recommendation.js`) -/

/-- JS object-literal insertion: a later property assignment overwrites an
earlier one with the same key, otherwise it is appended. -/
def objInsert (o : List (String × String)) (k v : String) : List (String × String) :=
  if o.any (fun p => p.1 = k) then o.map (fun p => if p.1 = k then (k, v) else p)
  else o ++ [(k, v)]

/-- A JS object literal built from its property assignments in order. -/
def objOfList (ps : List (String × String)) : List (String × String) :=
  ps.foldl (fun o p => objInsert o p.1 p.2) []

/-- `POST /` (recommendations.js lines 9–20): the stored document is
`{ ...req.body, userId: req.user._id }` — the spread of the request body with
`userId` overwritten last by the authenticated user's id. -/
def createRecommendationDoc (body : List (String × String)) (authUserId : String) :
    List (String × String) :=
  objInsert (objOfList body) "userId" authUserId

/-- The status enum of `recommendationSchema` (Recommendation.js lines 33–37). -/
def statusEnum : List String := ["pending", "applied", "scheduled"]

/-- Mongoose validation failure. -/
inductive MongooseError where
  | ValidationError (path value : String)
deriving Repr, DecidableEq

/-- A stored `Recommendation` document, restricted to the fields the claims
depend on (`userId`, `status`, the `createdAt` timestamp). -/
structure RecommendationDoc where
  userId : String
  status : String
  createdAt : Nat
deriving Repr, DecidableEq

/-- Schema validation of the `status` path on document creation: absent means
the default `'pending'`; present values must belong to the enum
(Recommendation.js lines 33–37). -/
def validateStatus (s : Option String) : Except MongooseError String :=
  match s with
  | none => .ok "pending"
  | some v => if v ∈ statusEnum then .ok v else .error (.ValidationError "status" v)

/-- `new Recommendation(...)` + `save()`: schema defaults and validators run,
producing a stored document or a validation error. -/
def saveRecommendation (userId : String) (createdAt : Nat) (status : Option String) :
    Except MongooseError RecommendationDoc :=
  match validateStatus status with
  | .error e => .error e
  | .ok st => .ok ⟨userId, st, createdAt⟩

/-- `PATCH /:id` (recommendations.js lines 47–61):
`findByIdAndUpdate(id, req.body, { new: true, runValidators: true })` — an
update that touches `status` is validated against the enum; an update that
does not touch it leaves it unchanged. -/
def updateRecommendation (doc : RecommendationDoc) (newStatus : Option String) :
    Except MongooseError RecommendationDoc :=
  match newStatus with
  | none => .ok doc
  | some v =>
    if v ∈ statusEnum then .ok { doc with status := v }
    else .error (.ValidationError "status" v)

/-- `GET /user/:userId` (recommendations.js lines 23–31):
`Recommendation.find({ userId: req.params.userId }).sort({ createdAt: -1 })`. -/
def getUserRecommendations (db : List RecommendationDoc) (uid : String) :
    List RecommendationDoc :=
  List.insertionSort (fun a b => b.createdAt ≤ a.createdAt)
    (db.filter (fun r => r.userId = uid))

/-- The full route handler: `authMiddleware` supplies the authenticated user,
but the handler body never consults it — only the path parameter. -/
def handleGetUserRecommendations (db : List RecommendationDoc) (authUser : String)
    (pathUserId : String) : List RecommendationDoc :=
  getUserRecommendations db pathUserId

/-! ## Concrete demonstration data (used by witnesses) -/

/-- A demo fold instance: constant probability vector `[1, 0]`. -/
def demoFoldA : List ℚ → Vec := fun _ => [1, 0]

/-- A demo fold instance: constant probability vector `[0, 1]`. -/
def demoFoldB : List ℚ → Vec := fun _ => [0, 1]

/-- A demo per-target model bundle: one family of two fold instances, an
identity meta-learner of width 2, and a two-class target codec. -/
def demoTargetModels : TargetModels :=
  { target := "pH_Amendment"
    perFamily := [[demoFoldA, demoFoldB]]
    meta := fun v => v
    metaWidth := 2
    codec := Codec.fit "pH_Amendment" ["None", "Lime"] }

/-- A small consistent demo ensemble store. -/
def demoStore : EnsembleStore :=
  { featCodecs := [Codec.fit "Soil_Type" ["Loamy", "Clay"]]
    mode := .strict
    families := ["rf"]
    targets := [demoTargetModels]
    featureOrder := ["Temperature", "Soil_Type"] }

/-- A demo batch of raw rows. -/
def demoRows : List RawRow :=
  [{ numeric := [25, 80], categorical := [("Soil_Type", "Loamy")] }]

/-- A demo two-family base-model bank for the 1000-row scenario: each instance
outputs a constant 5-class probability vector. -/
def demoFamilies1000 : List (Nat → Nat → Vec) :=
  [fun _ _ => [1, 0, 0, 0, 0], fun _ _ => [0, 1, 0, 0, 0]]

/-- Reference-target labels of the 1000-row scenario: 5 balanced classes. -/
def demoLabels1000 : List Nat := (List.range 1000).map (· % 5)

/-!
# Theorems
-/

/-! ## Codec lemmas -/

theorem vocabIndex_eq_none_of_not_mem {vocab : List String} {v : String}
    (h : v ∉ vocab) : vocabIndex vocab v = none := by
  induction vocab with
  | nil => rfl
  | cons w rest ih =>
    simp only [List.mem_cons, not_or] at h
    have hw : ¬ w = v := fun hw => h.1 hw.symm
    simp [vocabIndex, hw, ih h.2]

theorem vocabIndex_decode_of_mem {vocab : List String} {v : String}
    (h : v ∈ vocab) : ∃ i, vocabIndex vocab v = some i ∧ vocab.getD i "" = v := by
  induction vocab with
  | nil => cases h
  | cons w rest ih =>
    by_cases hw : w = v
    · exact ⟨0, by simp [vocabIndex, hw]⟩
    · rcases List.mem_cons.mp h with hv | hv
      · exact absurd hv.symm hw
      · rcases ih hv with ⟨i, hi, hd⟩
        exact ⟨i + 1, by simp [vocabIndex, hw, hi], by simpa using hd⟩

theorem countOcc_le_pickMoreFrequent_left (values : List String) (a b : String) :
    countOcc values a ≤ countOcc values (pickMoreFrequent values a b) := by
  unfold pickMoreFrequent
  split
  · omega
  · exact le_refl _

theorem countOcc_le_pickMoreFrequent_right (values : List String) (a b : String) :
    countOcc values b ≤ countOcc values (pickMoreFrequent values a b) := by
  unfold pickMoreFrequent
  split
  · exact le_refl _
  · omega

theorem pickMoreFrequent_eq_or (values : List String) (a b : String) :
    pickMoreFrequent values a b = a ∨ pickMoreFrequent values a b = b := by
  unfold pickMoreFrequent
  split
  · exact Or.inr rfl
  · exact Or.inl rfl

theorem foldl_pick_mem (values : List String) :
    ∀ (l : List String) (acc : String),
      l.foldl (pickMoreFrequent values) acc = acc ∨
      l.foldl (pickMoreFrequent values) acc ∈ l := by
  intro l
  induction l with
  | nil => intro acc; exact Or.inl rfl
  | cons b rest ih =>
    intro acc
    simp only [List.foldl_cons]
    rcases ih (pickMoreFrequent values acc b) with h | h
    · rw [h]
      rcases pickMoreFrequent_eq_or values acc b with hp | hp
      · exact Or.inl hp
      · exact Or.inr (by rw [hp]; exact List.mem_cons_self b rest)
    · exact Or.inr (List.mem_cons_of_mem _ h)

theorem foldl_pick_ge_acc (values : List String) :
    ∀ (l : List String) (acc : String),
      countOcc values acc ≤ countOcc values (l.foldl (pickMoreFrequent values) acc) := by
  intro l
  induction l with
  | nil => intro acc; exact le_refl _
  | cons b rest ih =>
    intro acc
    simp only [List.foldl_cons]
    exact le_trans (countOcc_le_pickMoreFrequent_left values acc b)
      (ih (pickMoreFrequent values acc b))

theorem foldl_pick_ge_mem (values : List String) :
    ∀ (l : List String) (acc w : String), w ∈ l →
      countOcc values w ≤ countOcc values (l.foldl (pickMoreFrequent values) acc) := by
  intro l
  induction l with
  | nil => intro acc w hw; cases hw
  | cons b rest ih =>
    intro acc w hw
    simp only [List.foldl_cons]
    rcases List.mem_cons.mp hw with rfl | hw
    · exact le_trans (countOcc_le_pickMoreFrequent_right values acc w)
        (foldl_pick_ge_acc values rest _)
    · exact ih _ w hw

theorem mostFrequentOf_mem {values : List String} (h : values ≠ []) :
    mostFrequentOf values ∈ values := by
  match values with
  | [] => exact absurd rfl h
  | v :: rest =>
    show (v :: rest).foldl (pickMoreFrequent (v :: rest)) v ∈ v :: rest
    rcases foldl_pick_mem (v :: rest) (v :: rest) v with h' | h'
    · rw [h']; exact List.mem_cons_self v rest
    · exact h'

theorem mostFrequentOf_max {values : List String} (w : String) (hw : w ∈ values) :
    countOcc values w ≤ countOcc values (mostFrequentOf values) := by
  match values with
  | [] => cases hw
  | v :: rest =>
    show countOcc (v :: rest) w ≤
      countOcc (v :: rest) ((v :: rest).foldl (pickMoreFrequent (v :: rest)) v)
    exact foldl_pick_ge_mem (v :: rest) (v :: rest) v w hw

/-! ## OOF lemmas -/

theorem not_mem_trainingRowIdx_self (assignment : List Nat) (i : Nat) :
    i ∉ trainingRowIdx assignment (assignment.getD i 0) := by
  simp [trainingRowIdx, List.mem_filter]

theorem oofMatrix_getD (families : List (Nat → Nat → Vec)) (assignment : List Nat)
    (i : Nat) (h : i < assignment.length) :
    (oofMatrix families assignment).getD i [] =
      (families.map fun m => m (assignment.getD i 0) i).flatten := by
  unfold oofMatrix
  rw [List.getD_eq_getElem?_getD]
  rw [List.getElem?_map]
  rw [List.getElem?_range h]
  simp [oofFamilyRow]

theorem length_oofMatrix (families : List (Nat → Nat → Vec)) (assignment : List Nat) :
    (oofMatrix families assignment).length = assignment.length := by
  simp [oofMatrix]

theorem sum_of_all_eq {c : Nat} : ∀ (l : List Nat), (∀ x ∈ l, x = c) →
    l.sum = l.length * c := by
  intro l
  induction l with
  | nil => intro _; simp
  | cons x rest ih =>
    intro h
    have hx : x = c := h x (List.mem_cons_self x rest)
    have hr := ih (fun y hy => h y (List.mem_cons_of_mem x hy))
    simp [hx, hr, Nat.succ_mul, Nat.add_comm]

theorem oofMatrix_row_length {families : List (Nat → Nat → Vec)} {c : Nat}
    (assignment : List Nat)
    (hc : ∀ m ∈ families, ∀ k i, (m k i).length = c) (r : Vec)
    (hr : r ∈ oofMatrix families assignment) :
    r.length = families.length * c := by
  unfold oofMatrix at hr
  rcases List.mem_map.mp hr with ⟨i, _, rfl⟩
  rw [List.length_flatten]
  rw [List.map_map]
  have : ∀ x ∈ (families.map fun m =>
      (List.length ∘ fun m => oofFamilyRow m assignment i) m), x = c := by
    intro x hx
    rcases List.mem_map.mp hx with ⟨m, hm, rfl⟩
    exact hc m hm _ _
  calc (families.map (List.length ∘ fun m => oofFamilyRow m assignment i)).sum
      = (families.map (List.length ∘ fun m => oofFamilyRow m assignment i)).length * c :=
        sum_of_all_eq _ this
    _ = families.length * c := by rw [List.length_map]

theorem accuracy_nonneg (preds actual : List Nat) : 0 ≤ accuracy preds actual := by
  unfold accuracy
  split
  · exact le_refl 0
  · positivity

theorem accuracy_le_one (preds actual : List Nat) : accuracy preds actual ≤ 1 := by
  unfold accuracy
  split
  · exact zero_le_one
  · rename_i h
    have hlen : 0 < preds.length := Nat.pos_of_ne_zero h
    rw [div_le_one (by exact_mod_cast hlen)]
    have h1 : (preds.zip actual).countP (fun p => p.1 = p.2) ≤ (preds.zip actual).length :=
      List.countP_le_length _
    have h2 : (preds.zip actual).length ≤ preds.length := by
      rw [List.length_zip]; exact Nat.min_le_left _ _
    exact_mod_cast le_trans h1 h2

/-! ## Vector-averaging lemmas -/

theorem addVec_length (a b : Vec) : (addVec a b).length = min a.length b.length := by
  simp [addVec]

theorem addVec_getD : ∀ (a b : Vec) (j : Nat), j < a.length → j < b.length →
    (addVec a b).getD j 0 = a.getD j 0 + b.getD j 0 := by
  intro a
  induction a with
  | nil => intro b j h _; exact absurd h (Nat.not_lt_zero j)
  | cons x xs ih =>
    intro b j ha hb
    cases b with
    | nil => exact absurd hb (Nat.not_lt_zero j)
    | cons y ys =>
      cases j with
      | zero => simp [addVec]
      | succ j =>
        simp only [addVec, List.zipWith_cons_cons, List.getD_cons_succ]
        exact ih ys j (Nat.lt_of_succ_lt_succ ha) (Nat.lt_of_succ_lt_succ hb)

theorem sumVecs_length : ∀ (vs : List Vec) (L : Nat), vs ≠ [] →
    (∀ v ∈ vs, v.length = L) → (sumVecs vs).length = L := by
  intro vs
  induction vs with
  | nil => intro L h _; exact absurd rfl h
  | cons v rest ih =>
    intro L _ hall
    cases rest with
    | nil => exact hall v (by simp)
    | cons w ws =>
      show (addVec v (sumVecs (w :: ws))).length = L
      rw [addVec_length,
        ih L (by simp) (fun u hu => hall u (List.mem_cons_of_mem _ hu)),
        hall v (by simp)]
      simp

theorem sumVecs_getD : ∀ (vs : List Vec) (L j : Nat), (∀ v ∈ vs, v.length = L) →
    j < L → (sumVecs vs).getD j 0 = (vs.map (fun v => v.getD j 0)).sum := by
  intro vs
  induction vs with
  | nil => intro L j _ _; simp [sumVecs]
  | cons v rest ih =>
    intro L j hall hj
    cases rest with
    | nil => simp [sumVecs]
    | cons w ws =>
      have h1 : j < v.length := by rw [hall v (by simp)]; exact hj
      have h2 : j < (sumVecs (w :: ws)).length := by
        rw [sumVecs_length (w :: ws) L (by simp)
          (fun u hu => hall u (List.mem_cons_of_mem _ hu))]
        exact hj
      show (addVec v (sumVecs (w :: ws))).getD j 0 = _
      rw [addVec_getD v _ j h1 h2,
        ih L j (fun u hu => hall u (List.mem_cons_of_mem _ hu)) hj]
      simp

theorem map_div_getD (v : Vec) (c : ℚ) (j : Nat) (hj : j < v.length) :
    (v.map (· / c)).getD j 0 = v.getD j 0 / c := by
  rw [List.getD_eq_getElem?_getD, List.getElem?_map, List.getD_eq_getElem?_getD,
    List.getElem?_eq_getElem hj]
  simp

theorem familyAvg_getD (folds : List (List ℚ → Vec)) (x : List ℚ) (L j : Nat)
    (hne : folds ≠ []) (hL : ∀ f ∈ folds, (f x).length = L) (hj : j < L) :
    (familyAvg folds x).getD j 0 =
      ((folds.map (fun f => (f x).getD j 0)).sum) / (folds.length : ℚ) := by
  unfold familyAvg avgVecs
  have hlen : ∀ v ∈ folds.map (fun f => f x), v.length = L := by
    intro v hv; rcases List.mem_map.mp hv with ⟨f, hf, rfl⟩; exact hL f hf
  have hmapne : folds.map (fun f => f x) ≠ [] := by
    intro hc; exact hne (List.map_eq_nil_iff.mp hc)
  have hs : j < (sumVecs (folds.map fun f => f x)).length := by
    rw [sumVecs_length _ L hmapne hlen]; exact hj
  rw [map_div_getD _ _ j hs, sumVecs_getD _ L j hlen hj]
  simp [List.map_map, Function.comp_def]

/-! ## Route lemmas -/

theorem objLookup_objInsert (o : List (String × String)) (k v : String) :
    lookupStr (objInsert o k v) k = some v := by
  unfold objInsert
  split
  · rename_i h
    induction o with
    | nil => simp at h
    | cons p rest ih =>
      by_cases hp : p.1 = k
      · simp [lookupStr, hp]
      · have h' : rest.any (fun p => p.1 = k) = true := by
          simp only [List.any_cons] at h
          rcases Bool.or_eq_true_iff.mp h with h1 | h1
          · exact absurd (of_decide_eq_true h1) hp
          · exact h1
        simp only [List.map_cons, if_neg hp]
        simp [lookupStr, hp, ih h']
  · induction o with
    | nil => simp [lookupStr]
    | cons p rest ih =>
      rename_i h
      have hp : ¬ p.1 = k := by
        simp only [List.any_cons, Bool.or_eq_true_iff, not_or] at h
        exact fun hc => h.1 (decide_eq_true hc)
      have h' : ¬ rest.any (fun p => p.1 = k) = true := by
        simp only [List.any_cons, Bool.or_eq_true_iff, not_or] at h
        exact h.2
      simp only [List.cons_append, lookupStr, if_neg hp]
      exact ih h'

/-! ## Inference helper lemmas -/

theorem collectTargets_keys (store : EnsembleStore) (x : List ℚ) :
    ∀ l : List String,
      (∃ e, collectTargets store x l = .error e) ∨
      (∃ m, collectTargets store x l = .ok m ∧ m.map Prod.fst = l) := by
  intro l
  induction l with
  | nil => exact Or.inr ⟨[], rfl, rfl⟩
  | cons n rest ih =>
    cases hf : findTarget store n with
    | error e => exact Or.inl ⟨e, by simp [collectTargets, hf]⟩
    | ok tm =>
      rcases ih with ⟨e, he⟩ | ⟨m, hm, hkeys⟩
      · exact Or.inl ⟨e, by simp [collectTargets, hf, he]⟩
      · exact Or.inr ⟨(n, predictTargetLabel tm x) :: m,
          by simp [collectTargets, hf, hm], by simp [hkeys]⟩

/-! ## Claim theorems -/

/-- C1: for every training row `i` and every target, the out-of-fold
probability vector written into row `i` of the OOF matrix is produced only by
base-model instances whose excluded (held-out) fold contains `i` — the
producing instance's training rows never include `i`. -/
theorem oof_no_leakage (families : List (Nat → Nat → Vec)) (assignment : List Nat)
    (i : Nat) (h : i < assignment.length) :
    i ∉ trainingRowIdx assignment (assignment.getD i 0) ∧
    (oofMatrix families assignment).getD i [] =
      (families.map fun m => m (assignment.getD i 0) i).flatten :=
  ⟨not_mem_trainingRowIdx_self assignment i, oofMatrix_getD families assignment i h⟩

/-- Witness for C1 at a concrete 5-row fold assignment. -/
theorem oof_no_leakage_witness :
    (3 < ([0, 1, 2, 0, 1] : List Nat).length) ∧
    (3 ∉ trainingRowIdx [0, 1, 2, 0, 1] (([0, 1, 2, 0, 1] : List Nat).getD 3 0) ∧
     (oofMatrix demoFamilies1000 [0, 1, 2, 0, 1]).getD 3 [] =
       (demoFamilies1000.map fun m => m (([0, 1, 2, 0, 1] : List Nat).getD 3 0) 3).flatten) :=
  ⟨by decide, oof_no_leakage demoFamilies1000 [0, 1, 2, 0, 1] 3 (by decide)⟩

/-- C2: encoding a categorical value absent from a fitted codec's vocabulary
fails with `UnknownCategory` in strict mode (which is the default), and only
in an explicitly configured lenient mode resolves to the most frequent
training-time category for that column — never a silent substitution in
strict mode. -/
theorem codec_unknown_category (col v : String) (values : List String)
    (hne : values ≠ [])
    (hv : v ∉ (Codec.fit col values).vocab) :
    defaultMode = EncodingMode.strict ∧
    (Codec.fit col values).encode .strict v =
      .error (.UnknownCategory col v) ∧
    ((Codec.fit col values).encode .lenient v).map (Codec.fit col values).decode =
      .ok (mostFrequentOf values) ∧
    mostFrequentOf values ∈ values ∧
    (values.all fun w =>
      countOcc values w ≤ countOcc values (mostFrequentOf values)) = true := by
  have hmf : mostFrequentOf values ∈ values := mostFrequentOf_mem hne
  have hmfv : (Codec.fit col values).mostFrequent ∈ (Codec.fit col values).vocab := by
    show mostFrequentOf values ∈ values.dedup
    exact List.mem_dedup.mpr hmf
  have hnone : vocabIndex (Codec.fit col values).vocab v = none :=
    vocabIndex_eq_none_of_not_mem hv
  rcases vocabIndex_decode_of_mem hmfv with ⟨i, hi, hd⟩
  refine ⟨rfl, ?_, ?_, hmf, ?_⟩
  · unfold Codec.encode
    rw [hnone]
    exact rfl
  · have henc : (Codec.fit col values).encode .lenient v = Except.ok i := by
      unfold Codec.encode
      simp only [hnone, hi]
    have hdec : (Codec.fit col values).decode i = mostFrequentOf values := hd
    rw [henc]
    exact congrArg Except.ok hdec
  · rw [List.all_eq_true]
    intro w hw
    simpa using mostFrequentOf_max w hw

/-- Witness for C2: `"Volcanic"` was never seen when fitting on
`["Loamy", "Loamy", "Clay"]`. -/
theorem codec_unknown_category_witness :
    ((["Loamy", "Loamy", "Clay"] : List String) ≠ []) ∧
    ("Volcanic" ∉ (Codec.fit "soil_type" ["Loamy", "Loamy", "Clay"]).vocab) ∧
    (defaultMode = EncodingMode.strict ∧
     (Codec.fit "soil_type" ["Loamy", "Loamy", "Clay"]).encode .strict "Volcanic" =
       .error (.UnknownCategory "soil_type" "Volcanic") ∧
     ((Codec.fit "soil_type" ["Loamy", "Loamy", "Clay"]).encode .lenient "Volcanic").map
         (Codec.fit "soil_type" ["Loamy", "Loamy", "Clay"]).decode =
       .ok (mostFrequentOf ["Loamy", "Loamy", "Clay"]) ∧
     mostFrequentOf ["Loamy", "Loamy", "Clay"] ∈ (["Loamy", "Loamy", "Clay"] : List String) ∧
     ((["Loamy", "Loamy", "Clay"] : List String).all fun w =>
       countOcc ["Loamy", "Loamy", "Clay"] w ≤
         countOcc ["Loamy", "Loamy", "Clay"]
           (mostFrequentOf ["Loamy", "Loamy", "Clay"])) = true) :=
  ⟨by decide, by decide,
    codec_unknown_category "soil_type" "Volcanic" ["Loamy", "Loamy", "Clay"]
      (by decide) (by decide)⟩

/-- C3: `predict` either returns a mapping whose keys are exactly the six
target names, or fails as a whole — it never returns a proper subset of the
six targets. -/
theorem predict_all_or_nothing (store : EnsembleStore) (r : RawRow) :
    targetNames.length = 6 ∧
    ((∃ e, predict store r = .error e) ∨
     (∃ m, predict store r = .ok m ∧ m.map Prod.fst = targetNames)) := by
  refine ⟨rfl, ?_⟩
  cases he : encodeRow store r with
  | error e => exact Or.inl ⟨e, by simp [predict, he]⟩
  | ok x =>
    rcases collectTargets_keys store x targetNames with ⟨e, hc⟩ | ⟨m, hm, hk⟩
    · exact Or.inl ⟨e, by simp [predict, he, hc]⟩
    · exact Or.inr ⟨m, by simp [predict, he, hm], hk⟩

/-- C4: `load (save e)` reproduces the predictions of `e` on any fixed batch
of rows, and loading one blob twice yields stores with identical predictions. -/
theorem save_load_roundtrip (e e₁ e₂ : EnsembleStore) (b : Blob) (rows : List RawRow)
    (h : storeConsistent e = true)
    (h1 : load b = .ok e₁) (h2 : load b = .ok e₂) :
    load (save e) = .ok e ∧
    (load (save e)).map (fun s => predictBatch s rows) = .ok (predictBatch e rows) ∧
    predictBatch e₁ rows = predictBatch e₂ rows := by
  have hl : load (save e) = .ok e := by simp [load, save, h]
  refine ⟨hl, by rw [hl]; rfl, ?_⟩
  have he : e₁ = e₂ := by
    by_cases hb : storeConsistent b.payload = true
    · simp [load, hb] at h1 h2
      rw [← h1, ← h2]
    · simp [load, hb] at h1
  rw [he]

/-- Witness for C4 at a small consistent demo store. -/
theorem save_load_roundtrip_witness :
    storeConsistent demoStore = true ∧
    load (save demoStore) = .ok demoStore ∧
    (load (save demoStore) = .ok demoStore ∧
     (load (save demoStore)).map (fun s => predictBatch s demoRows) =
       .ok (predictBatch demoStore demoRows) ∧
     predictBatch demoStore demoRows = predictBatch demoStore demoRows) :=
  ⟨by decide, rfl,
    save_load_roundtrip demoStore demoStore demoStore (save demoStore) demoRows
      (by decide) rfl rfl⟩

/-- C5: inference computes, per trained family, the simple arithmetic mean of
the K fold instances' probability vectors, concatenates the per-family means
in the persisted family order, feeds the concatenation to the target's
meta-learner, takes the arg-max class and decodes it via the target codec. -/
theorem inference_combination (tm : TargetModels) (x : List ℚ)
    (folds : List (List ℚ → Vec)) (L j : Nat)
    (hmem : folds ∈ tm.perFamily) (hne : folds ≠ [])
    (hL : ∀ f ∈ folds, (f x).length = L) (hj : j < L) :
    predictTargetLabel tm x =
      tm.codec.decode (argmax (tm.meta
        ((tm.perFamily.map (fun fs => familyAvg fs x)).flatten))) ∧
    (familyAvg folds x).getD j 0 =
      ((folds.map (fun f => (f x).getD j 0)).sum) / (folds.length : ℚ) :=
  ⟨rfl, familyAvg_getD folds x L j hne hL hj⟩

/-- Witness for C5 at the demo target models (one family, two folds). -/
theorem inference_combination_witness :
    ([demoFoldA, demoFoldB] ∈ demoTargetModels.perFamily) ∧
    (([demoFoldA, demoFoldB] : List (List ℚ → Vec)) ≠ []) ∧
    (0 < 2) ∧
    (predictTargetLabel demoTargetModels [3, 1] =
      demoTargetModels.codec.decode (argmax (demoTargetModels.meta
        ((demoTargetModels.perFamily.map (fun fs => familyAvg fs [3, 1])).flatten))) ∧
     (familyAvg [demoFoldA, demoFoldB] [3, 1]).getD 0 0 =
       (([demoFoldA, demoFoldB].map (fun f => (f [3, 1]).getD 0 0)).sum) /
         (([demoFoldA, demoFoldB] : List (List ℚ → Vec)).length : ℚ)) :=
  ⟨List.mem_singleton.mpr rfl, by simp, by decide,
    inference_combination demoTargetModels [3, 1] [demoFoldA, demoFoldB] 2 0
      (List.mem_singleton.mpr rfl) (by simp)
      (by
        intro f hf
        rcases List.mem_cons.mp hf with rfl | hf
        · rfl
        · rcases List.mem_cons.mp hf with rfl | hf
          · rfl
          · cases hf)
      (by decide)⟩

/-- C6: with `k_folds = 5`, two base families and a 1000-row dataset whose
target has 5 classes, the OOF matrix has shape 1000 × 10 with every row
populated, and any reported accuracy is a single rational in `[0, 1]`. -/
theorem oof_example_scenario (families : List (Nat → Nat → Vec))
    (assignment : List Nat) (preds actual : List Nat)
    (hlen : assignment.length = 1000) (hfam : families.length = 2)
    (hc : ∀ m ∈ families, ∀ k i, (m k i).length = 5) :
    (oofMatrix families assignment).length = 1000 ∧
    ((oofMatrix families assignment).all fun r => r.length == 10) = true ∧
    0 ≤ accuracy preds actual ∧ accuracy preds actual ≤ 1 := by
  refine ⟨?_, ?_, accuracy_nonneg preds actual, accuracy_le_one preds actual⟩
  · rw [length_oofMatrix, hlen]
  · rw [List.all_eq_true]
    intro r hr
    have h10 := oofMatrix_row_length assignment hc r hr
    rw [hfam] at h10
    simp [h10]

/-- Witness for C6: the stratified 5-fold partition of 1000 rows with 5
balanced reference classes, two constant demo families. -/
theorem oof_example_scenario_witness :
    ((stratifiedPartition demoLabels1000 5).length = 1000) ∧
    (demoFamilies1000.length = 2) ∧
    ((oofMatrix demoFamilies1000 (stratifiedPartition demoLabels1000 5)).length = 1000 ∧
     ((oofMatrix demoFamilies1000 (stratifiedPartition demoLabels1000 5)).all
       fun r => r.length == 10) = true ∧
     0 ≤ accuracy [0, 1, 2] [0, 1, 3] ∧ accuracy [0, 1, 2] [0, 1, 3] ≤ 1) :=
  ⟨by simp [stratifiedPartition, demoLabels1000], rfl,
    oof_example_scenario demoFamilies1000 (stratifiedPartition demoLabels1000 5)
      [0, 1, 2] [0, 1, 3]
      (by simp [stratifiedPartition, demoLabels1000]) rfl
      (by
        intro m hm
        rcases List.mem_cons.mp hm with rfl | hm
        · intro k i; rfl
        · rcases List.mem_cons.mp hm with rfl | hm
          · intro k i; rfl
          · cases hm)⟩

/-- C7: a configuration with fewer than two structurally distinct base-model
families surfaces the non-fatal `DegradedEnsemble` warning; training still
completes, and with two or more distinct families no such warning is raised. -/
theorem degraded_ensemble_detection (cfg : TrainConfig) :
    train cfg = .ok { familiesTrained := cfg.families.dedup,
                      warnings := configWarnings cfg } ∧
    (TrainingWarning.DegradedEnsemble ∈ configWarnings cfg ↔
      cfg.families.dedup.length < 2) := by
  refine ⟨rfl, ?_⟩
  unfold configWarnings
  split
  · rename_i h
    simp [h]
  · rename_i h
    simp [h]

/-- C8: the stored recommendation's `userId` is the authenticated user's id
regardless of any `userId` supplied in the request body; two bodies that
differ only in their `userId` field store the same `userId`. -/
theorem post_recommendation_userid (body body' : List (String × String))
    (authUserId : String) :
    lookupStr (createRecommendationDoc body authUserId) "userId" = some authUserId ∧
    lookupStr (createRecommendationDoc body authUserId) "userId" =
      lookupStr (createRecommendationDoc body' authUserId) "userId" := by
  have h1 := objLookup_objInsert (objOfList body) "userId" authUserId
  have h2 := objLookup_objInsert (objOfList body') "userId" authUserId
  refine ⟨h1, ?_⟩
  unfold createRecommendationDoc
  rw [h1, h2]

/-- C9: every stored recommendation document has a `status` in
`{pending, applied, scheduled}`; creation without a status defaults to
`'pending'`, and the validated PATCH update preserves the invariant. -/
theorem recommendation_status_invariant (u : String) (t : Nat)
    (s st : Option String) (d d' : RecommendationDoc)
    (hc : saveRecommendation u t s = .ok d)
    (hu : updateRecommendation d st = .ok d') :
    saveRecommendation u t none = .ok ⟨u, "pending", t⟩ ∧
    d.status ∈ statusEnum ∧ d'.status ∈ statusEnum := by
  have hd : d.status ∈ statusEnum := by
    cases s with
    | none =>
      simp only [saveRecommendation, validateStatus] at hc
      cases hc
      exact show "pending" ∈ statusEnum by decide
    | some v =>
      simp only [saveRecommendation, validateStatus] at hc
      by_cases hv : v ∈ statusEnum
      · rw [if_pos hv] at hc
        cases hc
        exact hv
      · rw [if_neg hv] at hc
        cases hc
  refine ⟨rfl, hd, ?_⟩
  cases st with
  | none =>
    simp only [updateRecommendation] at hu
    cases hu
    exact hd
  | some v =>
    simp only [updateRecommendation] at hu
    by_cases hv : v ∈ statusEnum
    · rw [if_pos hv] at hu
      cases hu
      exact hv
    · rw [if_neg hv] at hu
      cases hu

/-- Witness for C9: create with an explicit valid status, then update it. -/
theorem recommendation_status_invariant_witness :
    saveRecommendation "u1" 0 (some "applied") = .ok ⟨"u1", "applied", 0⟩ ∧
    updateRecommendation ⟨"u1", "applied", 0⟩ (some "scheduled") =
      .ok ⟨"u1", "scheduled", 0⟩ ∧
    (saveRecommendation "u1" 0 none = .ok ⟨"u1", "pending", 0⟩ ∧
     (RecommendationDoc.mk "u1" "applied" 0).status ∈ statusEnum ∧
     (RecommendationDoc.mk "u1" "scheduled" 0).status ∈ statusEnum) :=
  ⟨rfl, rfl,
    recommendation_status_invariant "u1" 0 (some "applied") (some "scheduled")
      ⟨"u1", "applied", 0⟩ ⟨"u1", "scheduled", 0⟩ rfl rfl⟩

/-- C10: `GET /user/:userId` returns exactly the stored recommendations whose
`userId` equals the path parameter, sorted newest-first by `createdAt`, and
the result is independent of the authenticated caller (no ownership check). -/
theorem get_user_recommendations_contract (db : List RecommendationDoc)
    (caller caller' uid : String) (r : RecommendationDoc) :
    handleGetUserRecommendations db caller uid =
      handleGetUserRecommendations db caller' uid ∧
    (r ∈ handleGetUserRecommendations db caller uid ↔ r ∈ db ∧ r.userId = uid) ∧
    (handleGetUserRecommendations db caller uid).Sorted
      (fun a b => b.createdAt ≤ a.createdAt) := by
  refine ⟨rfl, ?_, ?_⟩
  · unfold handleGetUserRecommendations getUserRecommendations
    rw [List.mem_insertionSort]
    simp [List.mem_filter]
  · unfold handleGetUserRecommendations getUserRecommendations
    haveI : IsTotal RecommendationDoc (fun a b => b.createdAt ≤ a.createdAt) :=
      ⟨fun a b => (le_total b.createdAt a.createdAt).imp id id⟩
    haveI : IsTrans RecommendationDoc (fun a b => b.createdAt ≤ a.createdAt) :=
      ⟨fun a b c hab hbc => le_trans hbc hab⟩
    exact List.sorted_insertionSort _ _
